import Mathlib

/-!
Shallow embedding of src/main.cpp (parsewinelog): a call/return log
correlation engine.  C++ strings are modelled as lists of characters,
size_t index arithmetic as natural numbers reduced modulo 2^64, and the
fallible std::string::substr as an Option.  The concurrent worker loop is
modelled by its sequential release semantics: one broadcast hands the
candidate line to every worker, and each worker performs one scan pass.
-/

/-- C++ std::string modelled as a list of characters. -/
abbrev Str := List Char

/-- std::string::npos, the size_t value 2^64 - 1. -/
def npos : Nat := 2 ^ 64 - 1

/-- Addition of size_t values (wraparound modulo 2^64). -/
def uadd (x y : Nat) : Nat := (x + y) % 2 ^ 64

/-- Subtraction x - y of size_t values (wraparound modulo 2^64); the
subtrahend y is expected to be already reduced, i.e. y ≤ 2^64. -/
def usub (x y : Nat) : Nat := (x + 2 ^ 64 - y) % 2 ^ 64

/-- std::string::find(pat): the least index at which pat occurs as a
substring, if any. -/
def strFind? (s pat : Str) : Option Nat :=
  (List.range (s.length + 1)).find? (fun i => pat.isPrefixOf (s.drop i))

/-- std::string::find(pat) as a size_t: the found index, or npos. -/
def strFind (s pat : Str) : Nat := (strFind? s pat).getD npos

/-- std::string::find_first_of(c): the least index holding character c,
if any (searching for one character is searching for a one-character
substring). -/
def charFind? (s : Str) (c : Char) : Option Nat := strFind? s [c]

/-- std::string::find_first_of(c) as a size_t: the found index, or npos. -/
def charFind (s : Str) (c : Char) : Nat := (charFind? s c).getD npos

/-- std::string::substr(pos, len): none models the std::out_of_range throw
for pos > size(); len is clamped to the available suffix. -/
def substr? (s : Str) (pos len : Nat) : Option Str :=
  if pos ≤ s.length then some ((s.drop pos).take len) else none

/-- The marker "Call " searched by Parser::operator(). -/
def callMark : Str := ['C', 'a', 'l', 'l', ' ']

/-- The marker "ret=" searched by Parser::operator(). -/
def retMark : Str := ['r', 'e', 't', '=']

/-- The token "Call" searched by the driver loop in main. -/
def callTok : Str := ['C', 'a', 'l', 'l']

/-- The token "Ret" searched by the driver loop in main. -/
def retTok : Str := ['R', 'e', 't']

/-- Parser::operator() (src/main.cpp lines 115-145).  The first argument
is the stored Call line, the second the candidate Ret line.  Returns
none when a substr call would throw (which cannot happen in
driver-reachable states), some true on a match, some false otherwise. -/
def parserMatch (Call Ret : Str) : Option Bool :=
  let callPosBegin := uadd (strFind Call callMark) 5
  let callPosEnd := usub (charFind Call '(') callPosBegin
  match substr? Call callPosBegin callPosEnd with
  | none => none
  | some funcCall =>
    if strFind? Ret funcCall = none then some false
    else
      let addrPosBegin := strFind Call retMark
      if addrPosBegin = npos then some true
      else
        match substr? Call (uadd addrPosBegin 4) npos with
        | none => none
        | some addr =>
          if strFind? Ret addr = none then some false
          else some true

/-- The Bool answer of the Parser functor as used by Thread::run
(a throwing functor never reports a match). -/
def parserAccepts (call work : Str) : Bool :=
  match parserMatch call work with
  | some true => true
  | _ => false

/-- The funcCall value Parser::operator() slices out of a well-formed Call
line: the characters between the "Call " marker and the first '('. -/
def functionToken (Call : Str) : Option Str :=
  match strFind? Call callMark, charFind? Call '(' with
  | some p, some e =>
    if p + 5 ≤ e then some ((Call.drop (p + 5)).take (e - (p + 5))) else none
  | _, _ => none

/-- The addr value Parser::operator() slices out of a Call line carrying
a "ret=" marker: the whole suffix after that marker. -/
def returnAddressToken (Call : Str) : Option Str :=
  match strFind? Call retMark with
  | some q => some (Call.drop (q + 4))
  | none => none

/-- pat occurs inside s as a contiguous substring. -/
def containsStr (s pat : Str) : Prop := ∃ u v, s = u ++ pat ++ v

/-- A successful strFind? answer really is an occurrence, at an index
whose occurrence fits inside the string. -/
theorem strFind?_some (s pat : Str) (i : Nat) (h : strFind? s pat = some i) :
    pat.isPrefixOf (s.drop i) = true ∧ i + pat.length ≤ s.length := by
  rw [strFind?] at h
  have hp : pat.isPrefixOf (s.drop i) = true := by
    have := List.find?_some h
    simpa using this
  have hmem : i ∈ List.range (s.length + 1) := List.mem_of_find?_eq_some h
  have hi : i ≤ s.length := Nat.lt_succ_iff.mp (List.mem_range.mp hmem)
  refine ⟨hp, ?_⟩
  have hpre : pat <+: s.drop i := List.isPrefixOf_iff_prefix.mp hp
  have hlen : pat.length ≤ (s.drop i).length := hpre.length_le
  rw [List.length_drop] at hlen
  omega

/-- strFind? succeeds exactly on the strings containing the pattern. -/
theorem strFind?_isSome_iff (s pat : Str) :
    (strFind? s pat).isSome = true ↔ containsStr s pat := by
  constructor
  · intro h
    obtain ⟨i, hi⟩ := Option.isSome_iff_exists.mp h
    obtain ⟨hp, _⟩ := strFind?_some s pat i hi
    obtain ⟨t, ht⟩ := List.isPrefixOf_iff_prefix.mp hp
    exact ⟨s.take i, t, by rw [List.append_assoc, ht, List.take_append_drop]⟩
  · rintro ⟨u, v, rfl⟩
    rw [strFind?]
    apply List.find?_isSome.mpr
    refine ⟨u.length, List.mem_range.mpr ?_, ?_⟩
    · simp [List.length_append]
      omega
    · apply List.isPrefixOf_iff_prefix.mpr
      refine ⟨v, ?_⟩
      rw [List.append_assoc, List.drop_left]

instance (s pat : Str) : Decidable (containsStr s pat) :=
  decidable_of_iff _ (strFind?_isSome_iff s pat)

/-- A failing strFind? means the pattern does not occur. -/
theorem strFind?_none_iff (s pat : Str) :
    strFind? s pat = none ↔ ¬ containsStr s pat := by
  rw [← strFind?_isSome_iff]
  cases strFind? s pat <;> simp

/-- One release pass of Thread::run (src/main.cpp lines 186-202): scan the
pending vector in index order against the current candidate, erase the
first entry whose functor accepts it, then break out of the scan. -/
def threadRunOnce (work : Str) : List Str → List Str
  | [] => []
  | e :: rest =>
    if parserAccepts e work then rest else e :: threadRunOnce work rest

/-- Instrumentation of the same pass: the entries the pass erases
(the empty list, or the first accepted entry). -/
def threadRemovedBy (work : Str) : List Str → List Str
  | [] => []
  | e :: rest =>
    if parserAccepts e work then [e] else threadRemovedBy work rest

/-- The pool, ThreadPool::pool: each worker is its parseVector of stored
Call lines. -/
abbrev ThreadPool := List (List Str)

/-- The index std::min_element(pool.begin(), pool.end(), size-comparison)
lands on inside ThreadPool::enqueue: the first index attaining the minimum
of the list (cppreference: "If several elements in the range are
equivalent to the smallest element, returns the iterator to the first
such element"). -/
def minIdx : List Nat → Nat
  | [] => 0
  | x :: rest => if rest.any (fun y => y < x) then minIdx rest + 1 else 0

/-- ThreadPool::enqueue (src/main.cpp lines 306-315): append the Call line
to the parseVector of the least busy worker. -/
def poolEnqueue (pool : ThreadPool) (call : Str) : ThreadPool :=
  let next := minIdx (pool.map List.length)
  pool.set next (pool.getD next [] ++ [call])

/-- ThreadPool::process (src/main.cpp lines 320-327) together with the
release pass it triggers in every worker: each worker receives the
candidate line and performs one scan pass. -/
def poolProcess (work : Str) (pool : ThreadPool) : ThreadPool :=
  pool.map (threadRunOnce work)

/-- Instrumentation of poolProcess: all entries the broadcast removes. -/
def poolRemoved (work : Str) (pool : ThreadPool) : List Str :=
  (pool.map (threadRemovedBy work)).flatten

/-- Thread count chosen by the ThreadPool constructor (src/main.cpp lines
248-259): hardware_concurrency() is an unsigned (32-bit) value hc, the
subtraction hc - 1 wraps modulo 2^32, and the `numThreads <= 0` guard on
an unsigned value only fires at 0. -/
def numThreads (hc : Nat) : Nat :=
  let n := (hc + (2 ^ 32 - 1)) % 2 ^ 32
  if n = 0 then 1 else n

/-- The freshly constructed pool: numThreads workers, each with an empty
parseVector. -/
def initPool (hc : Nat) : ThreadPool := List.replicate (numThreads hc) []

/-- The three classification outcomes of the driver loop in main. -/
inductive LineClass
  | call
  | ret
  | other
deriving DecidableEq

/-- The driver's classification (src/main.cpp lines 378-394): a line
containing "Call" is a Call line, otherwise a line containing "Ret" is a
Ret line, otherwise it passes through. -/
def classify (line : Str) : LineClass :=
  if (strFind? line callTok).isSome then LineClass.call
  else if (strFind? line retTok).isSome then LineClass.ret
  else LineClass.other

/-- The observable driver state: the pool, the passthrough output written
so far, and (ghost accounting for the conservation statement) the entries
removed by Ret broadcasts so far. -/
structure DriverState where
  pool : ThreadPool
  passed : List Str
  matched : List Str
deriving DecidableEq

/-- One iteration of the driver loop in main (src/main.cpp lines 378-394). -/
def stepLine (s : DriverState) (line : Str) : DriverState :=
  match classify line with
  | LineClass.call => { s with pool := poolEnqueue s.pool line }
  | LineClass.ret =>
    { s with
      pool := poolProcess line s.pool
      matched := s.matched ++ poolRemoved line s.pool }
  | LineClass.other => { s with passed := s.passed ++ [line] }

/-- The whole driver loop over the input lines. -/
def runLines (s : DriverState) : List Str → DriverState
  | [] => s
  | l :: ls => runLines (stepLine s l) ls

/-- The driver state at program start, for a pool of n workers. -/
def initState (n : Nat) : DriverState :=
  { pool := List.replicate n [], passed := [], matched := [] }

/-- Helper for drainPool termination: erasing a worker never raises the
total number of stored entries. -/
theorem sum_map_length_eraseIdx_le (pool : ThreadPool) (i : Nat) :
    ((pool.eraseIdx i).map List.length).sum ≤ (pool.map List.length).sum := by
  induction pool generalizing i with
  | nil => simp [List.eraseIdx]
  | cons w ps ih =>
    cases i with
    | zero => simp [List.eraseIdx]
    | succ j =>
      simp only [List.eraseIdx, List.map_cons, List.sum_cons]
      exact Nat.add_le_add_left (ih j) _

/-- Helper for drainPool termination: replacing a worker holding e :: rest
by rest strictly lowers the total number of stored entries. -/
theorem sum_map_length_set_tail_lt (pool : ThreadPool) (i : Nat) (e : Str)
    (rest : List Str) (hw : pool.getD i [] = e :: rest) :
    ((pool.set i rest).map List.length).sum < (pool.map List.length).sum := by
  induction pool generalizing i with
  | nil => simp [List.getD] at hw
  | cons w ps ih =>
    cases i with
    | zero =>
      simp only [List.getD_cons_zero] at hw
      subst hw
      simp only [List.set, List.map_cons, List.sum_cons, List.length_cons]
      omega
    | succ j =>
      simp only [List.getD_cons_succ] at hw
      simp only [List.set, List.map_cons, List.sum_cons]
      exact Nat.add_lt_add_left (ih j hw) _

/-- The output loop operator<<(std::ostream&, ThreadPool&) together with
operator<<(std::ostream&, Thread&) (src/main.cpp lines 266-281 and
167-173): round-robin over the workers, retiring a worker whose vector is
empty, otherwise printing and erasing the front entry of the current
worker; the returned list is the sequence of Call lines printed. -/
def drainPool (pool : ThreadPool) (i : Nat) : List Str :=
  if hp : pool = [] then []
  else if hi : i < pool.length then
    match hw : pool.getD i [] with
    | [] => drainPool (pool.eraseIdx i) (if i < pool.length - 1 then i else 0)
    | e :: rest => e :: drainPool (pool.set i rest) ((i + 1) % pool.length)
  else []
termination_by (pool.map List.length).sum + pool.length
decreasing_by
  · have h1 : ((pool.eraseIdx i).map List.length).sum ≤ (pool.map List.length).sum :=
      sum_map_length_eraseIdx_le pool i
    have h2 : (pool.eraseIdx i).length = pool.length - 1 := by
      rw [List.length_eraseIdx]
      simp [hi]
    have h3 : 0 < pool.length := List.length_pos.mpr hp
    omega
  · have h1 : ((pool.set i rest).map List.length).sum < (pool.map List.length).sum :=
      sum_map_length_set_tail_lt pool i e rest hw
    have h2 : (pool.set i rest).length = pool.length := List.length_set pool i rest
    omega

/-- C1: for a stored Call line whose function token is f, the matcher
Parser::operator() answers true on a Ret string exactly when the Ret
string contains f as a substring and, when the Call line carries a
"ret=" return-address token a, also contains a as a substring; it
answers false otherwise. -/
theorem parser_match_iff_contains (Call Ret f : Str)
    (hlen : Call.length + 5 < 2 ^ 64)
    (hf : functionToken Call = some f) :
    ∃ b, parserMatch Call Ret = some b ∧
      (b = true ↔ (containsStr Ret f ∧
        ∀ a, returnAddressToken Call = some a → containsStr Ret a)) := by
  unfold functionToken at hf
  cases hp : strFind? Call callMark with
  | none => rw [hp] at hf; cases charFind? Call '(' <;> simp at hf
  | some p =>
  cases he : charFind? Call '(' with
  | none => rw [hp, he] at hf; simp at hf
  | some e =>
  rw [hp, he] at hf
  have hfi : (if p + 5 ≤ e then some ((Call.drop (p + 5)).take (e - (p + 5)))
      else none) = some f := hf
  by_cases hpe : p + 5 ≤ e
  · rw [if_pos hpe] at hfi
    have hf' : (Call.drop (p + 5)).take (e - (p + 5)) = f := by
      exact Option.some.inj hfi
    have hpb : p + 5 ≤ Call.length := by
      have := (strFind?_some Call callMark p hp).2
      simpa [callMark] using this
    have he' : strFind? Call ['('] = some e := he
    have heb : e + 1 ≤ Call.length := by
      have := (strFind?_some Call ['('] e he').2
      simpa using this
    have h1 : strFind Call callMark = p := by rw [strFind, hp]; rfl
    have h2 : charFind Call '(' = e := by rw [charFind, he]; rfl
    have h3 : uadd p 5 = p + 5 := by rw [uadd]; omega
    have h4 : usub e (p + 5) = e - (p + 5) := by rw [usub]; omega
    have h5 : substr? Call (p + 5) (e - (p + 5)) = some f := by
      rw [substr?, if_pos hpb, hf']
    simp only [parserMatch, h1, h3, h2, h4, h5]
    by_cases hrf : strFind? Ret f = none
    · refine ⟨false, by rw [if_pos hrf], ?_⟩
      have : ¬ containsStr Ret f := (strFind?_none_iff Ret f).mp hrf
      simp [this]
    · rw [if_neg hrf]
      have hcf : containsStr Ret f := by
        rw [← strFind?_isSome_iff]
        exact Option.ne_none_iff_isSome.mp hrf
      cases hq : strFind? Call retMark with
      | none =>
        have h6 : strFind Call retMark = npos := by rw [strFind, hq]; rfl
        rw [h6, if_pos rfl]
        refine ⟨true, rfl, ?_⟩
        have hra : returnAddressToken Call = none := by
          rw [returnAddressToken, hq]
        simp [hcf, hra]
      | some q =>
        have hqb : q + 4 ≤ Call.length := by
          have := (strFind?_some Call retMark q hq).2
          simpa [retMark] using this
        have h6 : strFind Call retMark = q := by rw [strFind, hq]; rfl
        have h7 : q ≠ npos := by rw [npos]; omega
        rw [h6, if_neg h7]
        have h8 : uadd q 4 = q + 4 := by rw [uadd]; omega
        have h9 : substr? Call (q + 4) npos = some (Call.drop (q + 4)) := by
          rw [substr?, if_pos hqb]
          congr 1
          apply List.take_of_length_le
          rw [List.length_drop, npos]
          omega
        rw [h8, h9]
        have hra : returnAddressToken Call = some (Call.drop (q + 4)) := by
          rw [returnAddressToken, hq]
        by_cases hrq : strFind? Ret (Call.drop (q + 4)) = none
        · refine ⟨false, by simp [hrq], ?_⟩
          have hnc : ¬ containsStr Ret (Call.drop (q + 4)) :=
            (strFind?_none_iff Ret (Call.drop (q + 4))).mp hrq
          constructor
          · intro hfalse; cases hfalse
          · rintro ⟨-, hall⟩
            exact absurd (hall _ hra) hnc
        · refine ⟨true, by simp [hrq], ?_⟩
          have hca : containsStr Ret (Call.drop (q + 4)) := by
            rw [← strFind?_isSome_iff]
            exact Option.ne_none_iff_isSome.mp hrq
          refine ⟨fun _ => ⟨hcf, ?_⟩, fun _ => rfl⟩
          intro a ha
          rw [hra] at ha
          cases ha
          exact hca
  · rw [if_neg hpe] at hfi
    cases hfi

/-- Witness for parser_match_iff_contains at the concrete Call line
"Call a( ret=Z" and Ret line "aZ". -/
theorem parser_match_iff_contains_wit :
    ∃ b, parserMatch ['C', 'a', 'l', 'l', ' ', 'a', '(', ' ', 'r', 'e', 't', '=', 'Z']
        ['a', 'Z'] = some b ∧
      (b = true ↔ (containsStr ['a', 'Z'] ['a'] ∧
        ∀ a, returnAddressToken
            ['C', 'a', 'l', 'l', ' ', 'a', '(', ' ', 'r', 'e', 't', '=', 'Z'] = some a →
          containsStr ['a', 'Z'] a)) :=
  parser_match_iff_contains
    ['C', 'a', 'l', 'l', ' ', 'a', '(', ' ', 'r', 'e', 't', '=', 'Z'] ['a', 'Z'] ['a']
    (by decide) (by decide)

/-- substr? never throws when the start position is inside the string. -/
theorem substr?_isSome_of_le (s : Str) (pos len : Nat) (h : pos ≤ s.length) :
    substr? s pos len = some ((s.drop pos).take len) := by
  rw [substr?, if_pos h]

/-- C10: the matcher is total at the public interface: on any stored Call
string containing "Call" (the driver's enqueue precondition, with the
C++ bound on string length) and any Ret string, Parser::operator()
returns a boolean — every substr stays within bounds even on malformed
Call lines, with the unsigned index arithmetic merely wrapping. -/
theorem parser_match_total (Call Ret : Str) (hc : containsStr Call callTok)
    (hlen : Call.length < 2 ^ 64) : (parserMatch Call Ret).isSome = true := by
  have hlen4 : 4 ≤ Call.length := by
    obtain ⟨u, v, h⟩ := hc
    rw [h]
    simp [callTok, List.length_append]
    omega
  have haddr : ∀ fc : Str,
      ((if strFind? Ret fc = none then some false
        else
          let addrPosBegin := strFind Call retMark
          if addrPosBegin = npos then some true
          else
            match substr? Call (uadd addrPosBegin 4) npos with
            | none => none
            | some addr =>
              if strFind? Ret addr = none then some false
              else some true) : Option Bool).isSome = true := by
    intro fc
    by_cases hrf : strFind? Ret fc = none
    · simp [hrf]
    · rw [if_neg hrf]
      cases hq : strFind? Call retMark with
      | none =>
        have h6 : strFind Call retMark = npos := by rw [strFind, hq]; rfl
        simp [h6]
      | some q =>
        have hqb : q + 4 ≤ Call.length := by
          have := (strFind?_some Call retMark q hq).2
          simpa [retMark] using this
        have h6 : strFind Call retMark = q := by rw [strFind, hq]; rfl
        have h7 : q ≠ npos := by rw [npos]; omega
        have h8 : uadd q 4 = q + 4 := by rw [uadd]; omega
        have h9 := substr?_isSome_of_le Call (q + 4) npos hqb
        simp only [h6, h8, h9]
        rw [if_neg h7]
        by_cases hra : strFind? Ret ((Call.drop (q + 4)).take npos) = none
        · simp [hra]
        · simp [hra]
  cases hp : strFind? Call callMark with
  | some p =>
    have hpb : p + 5 ≤ Call.length := by
      have := (strFind?_some Call callMark p hp).2
      simpa [callMark] using this
    have h1 : strFind Call callMark = p := by rw [strFind, hp]; rfl
    have h3 : uadd p 5 = p + 5 := by rw [uadd]; omega
    have h5 := substr?_isSome_of_le Call (p + 5)
      (usub (charFind Call '(') (p + 5)) (by omega)
    simp only [parserMatch, h1, h3, h5]
    exact haddr _
  | none =>
    have h1 : strFind Call callMark = npos := by rw [strFind, hp]; rfl
    have h3 : uadd npos 5 = 4 := by rw [uadd, npos]; omega
    have h5 := substr?_isSome_of_le Call 4 (usub (charFind Call '(') 4)
      (by omega)
    simp only [parserMatch, h1, h3, h5]
    exact haddr _

/-- Witness for parser_match_total at the malformed Call line "xCall"
(no "Call " marker, no parenthesis) against the empty Ret string. -/
theorem parser_match_total_wit :
    (parserMatch ['x', 'C', 'a', 'l', 'l'] []).isSome = true :=
  parser_match_total ['x', 'C', 'a', 'l', 'l'] [] (by decide) (by decide)

/-- A scan pass over entries none of which is accepted changes nothing. -/
theorem threadRunOnce_no_match (work : Str) :
    ∀ l : List Str, (∀ x ∈ l, parserAccepts x work = false) →
      threadRunOnce work l = l := by
  intro l h
  induction l with
  | nil => rfl
  | cons a rest ih =>
    have ha := h a (by simp)
    have hr : ∀ x ∈ rest, parserAccepts x work = false :=
      fun x hx => h x (by simp [hx])
    rw [threadRunOnce, ha]
    simp [ih hr]

/-- A scan pass erases exactly the first accepted entry and keeps the
rest, in order. -/
theorem threadRunOnce_first_match (work e : Str) (l₂ : List Str) :
    ∀ l₁ : List Str, (∀ x ∈ l₁, parserAccepts x work = false) →
      parserAccepts e work = true →
      threadRunOnce work (l₁ ++ e :: l₂) = l₁ ++ l₂ := by
  intro l₁
  induction l₁ with
  | nil =>
    intro _ h2
    simp [threadRunOnce, h2]
  | cons a rest ih =>
    intro h1 h2
    have ha := h1 a (by simp)
    rw [List.cons_append, threadRunOnce, ha]
    simp [ih (fun x hx => h1 x (by simp [hx])) h2]

/-- C4: each release makes the worker scan its pending list in order,
remove only the first entry the matcher accepts and stop there; when no
entry is accepted the pending list is left unchanged. -/
theorem thread_scan_first_match_only (work : Str) (l l₁ l₂ : List Str) (e : Str) :
    ((∀ x ∈ l, parserAccepts x work = false) → threadRunOnce work l = l) ∧
    (l = l₁ ++ e :: l₂ → (∀ x ∈ l₁, parserAccepts x work = false) →
      parserAccepts e work = true → threadRunOnce work l = l₁ ++ l₂) := by
  constructor
  · exact threadRunOnce_no_match work l
  · rintro rfl h1 h2
    exact threadRunOnce_first_match work e l₂ l₁ h1 h2

/-- Witness for thread_scan_first_match_only: against "Ret b" the pending
list [Call a(, Call b(, Call c(] loses exactly its second entry, and
against "Ret z" a pending list is untouched. -/
theorem thread_scan_first_match_only_wit :
    threadRunOnce ['R', 'e', 't', ' ', 'b']
        [['C', 'a', 'l', 'l', ' ', 'a', '('], ['C', 'a', 'l', 'l', ' ', 'b', '('],
          ['C', 'a', 'l', 'l', ' ', 'c', '(']] =
      [['C', 'a', 'l', 'l', ' ', 'a', '('], ['C', 'a', 'l', 'l', ' ', 'c', '(']] ∧
    threadRunOnce ['R', 'e', 't', ' ', 'z'] [['C', 'a', 'l', 'l', ' ', 'a', '(']] =
      [['C', 'a', 'l', 'l', ' ', 'a', '(']] := by
  constructor
  · exact (thread_scan_first_match_only ['R', 'e', 't', ' ', 'b']
      [['C', 'a', 'l', 'l', ' ', 'a', '('], ['C', 'a', 'l', 'l', ' ', 'b', '('],
        ['C', 'a', 'l', 'l', ' ', 'c', '(']]
      [['C', 'a', 'l', 'l', ' ', 'a', '(']] [['C', 'a', 'l', 'l', ' ', 'c', '(']]
      ['C', 'a', 'l', 'l', ' ', 'b', '(']).2 rfl (by decide) (by decide)
  · exact (thread_scan_first_match_only ['R', 'e', 't', ' ', 'z']
      [['C', 'a', 'l', 'l', ' ', 'a', '(']] [] [] []).1 (by decide)

/-- A scan pass removes at most one entry. -/
theorem threadRunOnce_length (work : Str) :
    ∀ l : List Str, (threadRunOnce work l).length = l.length ∨
      (threadRunOnce work l).length + 1 = l.length := by
  intro l
  induction l with
  | nil => left; rfl
  | cons a rest ih =>
    rw [threadRunOnce]
    by_cases h : parserAccepts a work
    · right; simp [h]
    · rcases ih with h1 | h1
      · left; simp [h, h1]
      · right; simp only [h, if_false, Bool.false_eq_true, List.length_cons]; omega

/-- getD of a mapped pool, inside the bound. -/
theorem getD_map_list (f : List Str → List Str) (pool : ThreadPool) :
    ∀ i, i < pool.length → (pool.map f).getD i [] = f (pool.getD i []) := by
  induction pool with
  | nil => intro i hi; cases hi
  | cons w ps ih =>
    intro i hi
    cases i with
    | zero => rfl
    | succ j =>
      simp only [List.map_cons, List.getD_cons_succ]
      exact ih j (by simpa using hi)

/-- C3 counterexample: a single Ret broadcast of "Ret a" against a pool
whose two workers each hold the entry "Call a(" removes two entries, one
in each worker — more than one across the pool. -/
theorem process_broadcast_removes_two :
    poolProcess ['R', 'e', 't', ' ', 'a']
        [[['C', 'a', 'l', 'l', ' ', 'a', '(']], [['C', 'a', 'l', 'l', ' ', 'a', '(']]] =
      [[], []] ∧
    poolRemoved ['R', 'e', 't', ' ', 'a']
        [[['C', 'a', 'l', 'l', ' ', 'a', '(']], [['C', 'a', 'l', 'l', ' ', 'a', '(']]] =
      [['C', 'a', 'l', 'l', ' ', 'a', '('], ['C', 'a', 'l', 'l', ' ', 'a', '(']] ∧
    ¬ ((poolRemoved ['R', 'e', 't', ' ', 'a']
        [[['C', 'a', 'l', 'l', ' ', 'a', '(']],
          [['C', 'a', 'l', 'l', ' ', 'a', '(']]]).length ≤ 1) := by
  decide

/-- C3 amended: a single Ret broadcast removes at most one pending entry
per worker (the worker count is preserved); across the pool one entry may
be removed in every worker holding an accepted entry. -/
theorem process_at_most_one_per_worker (work : Str) (pool : ThreadPool) :
    (poolProcess work pool).length = pool.length ∧
    ∀ i, i < pool.length →
      ((poolProcess work pool).getD i []).length = (pool.getD i []).length ∨
      ((poolProcess work pool).getD i []).length + 1 = (pool.getD i []).length := by
  constructor
  · simp [poolProcess]
  · intro i hi
    rw [poolProcess, getD_map_list (threadRunOnce work) pool i hi]
    exact threadRunOnce_length work (pool.getD i [])

/-- Witness for process_at_most_one_per_worker on a two-worker pool. -/
theorem process_at_most_one_per_worker_wit :
    (poolProcess ['R', 'e', 't', ' ', 'a']
        [[['C', 'a', 'l', 'l', ' ', 'a', '(']], []]).length = 2 ∧
    ((poolProcess ['R', 'e', 't', ' ', 'a']
        [[['C', 'a', 'l', 'l', ' ', 'a', '(']], []]).getD 0 []).length = 0 := by
  refine ⟨(process_at_most_one_per_worker ['R', 'e', 't', ' ', 'a']
    [[['C', 'a', 'l', 'l', ' ', 'a', '(']], []]).1, ?_⟩
  have h := (process_at_most_one_per_worker ['R', 'e', 't', ' ', 'a']
    [[['C', 'a', 'l', 'l', ' ', 'a', '(']], []]).2 0 (by decide)
  revert h
  decide

/-- No entry of an unaccepted pass is reported removed. -/
theorem threadRemovedBy_no_match (work : Str) :
    ∀ l : List Str, (∀ x ∈ l, parserAccepts x work = false) →
      threadRemovedBy work l = [] := by
  intro l h
  induction l with
  | nil => rfl
  | cons a rest ih =>
    rw [threadRemovedBy, h a (by simp)]
    simp [ih (fun x hx => h x (by simp [hx]))]

/-- C9: a Ret broadcast whose candidate is accepted by no pending entry
anywhere leaves every worker's pending list unchanged and removes
nothing; the candidate line is not retained anywhere. -/
theorem process_no_match_fixpoint (work : Str) (pool : ThreadPool)
    (h : ∀ l ∈ pool, ∀ x ∈ l, parserAccepts x work = false) :
    poolProcess work pool = pool ∧ poolRemoved work pool = [] := by
  constructor
  · rw [poolProcess]
    induction pool with
    | nil => rfl
    | cons w ps ih =>
      simp only [List.map_cons]
      rw [threadRunOnce_no_match work w (h w (by simp))]
      rw [ih (fun l hl x hx => h l (by simp [hl]) x hx)]
  · rw [poolRemoved]
    induction pool with
    | nil => rfl
    | cons w ps ih =>
      simp only [List.map_cons, List.flatten_cons]
      rw [threadRemovedBy_no_match work w (h w (by simp))]
      rw [List.nil_append]
      exact ih (fun l hl x hx => h l (by simp [hl]) x hx)

/-- Witness for process_no_match_fixpoint: "Ret a" against a pool holding
only "Call b(". -/
theorem process_no_match_fixpoint_wit :
    poolProcess ['R', 'e', 't', ' ', 'a'] [[['C', 'a', 'l', 'l', ' ', 'b', '(']]] =
      [[['C', 'a', 'l', 'l', ' ', 'b', '(']]] ∧
    poolRemoved ['R', 'e', 't', ' ', 'a'] [[['C', 'a', 'l', 'l', ' ', 'b', '(']]] = [] :=
  process_no_match_fixpoint ['R', 'e', 't', ' ', 'a']
    [[['C', 'a', 'l', 'l', ' ', 'b', '(']]] (by decide)

/-- getD agrees with get inside the bound (Nat lists). -/
theorem get_eq_getD_nat (l : List Nat) :
    ∀ (j : Nat) (h : j < l.length), l.get ⟨j, h⟩ = l.getD j 0 := by
  induction l with
  | nil => intro j h; cases h
  | cons x rest ih =>
    intro j h
    cases j with
    | zero => rfl
    | succ jj =>
      simp only [List.getD_cons_succ]
      exact ih jj (by simpa using h)

/-- The first-minimum index is inside the list. -/
theorem minIdx_lt_length : ∀ l : List Nat, l ≠ [] → minIdx l < l.length := by
  intro l
  induction l with
  | nil => intro h; exact absurd rfl h
  | cons x rest ih =>
    intro _
    rw [minIdx]
    by_cases h : rest.any (fun y => y < x)
    · rw [if_pos h]
      have hne : rest ≠ [] := by
        intro hr
        rw [hr] at h
        simp at h
      have := ih hne
      simp only [List.length_cons]
      omega
    · rw [if_neg h]
      simp

/-- The value at the first-minimum index is a minimum of the list. -/
theorem minIdx_le : ∀ (l : List Nat) (j : Nat), j < l.length →
    l.getD (minIdx l) 0 ≤ l.getD j 0 := by
  intro l
  induction l with
  | nil => intro j hj; cases hj
  | cons x rest ih =>
    intro j hj
    rw [minIdx]
    by_cases h : rest.any (fun y => y < x)
    · rw [if_pos h]
      simp only [List.getD_cons_succ]
      cases j with
      | zero =>
        simp only [List.getD_cons_zero]
        obtain ⟨y, hy, hlt⟩ := List.any_eq_true.mp h
        have hlt' : y < x := by simpa using hlt
        obtain ⟨⟨jy, hjy⟩, hget⟩ := List.mem_iff_get.mp hy
        have h2 : rest.getD jy 0 = y := by rw [← hget, get_eq_getD_nat]
        calc rest.getD (minIdx rest) 0 ≤ rest.getD jy 0 := ih jy hjy
          _ = y := h2
          _ ≤ x := Nat.le_of_lt hlt'
      | succ jj =>
        simp only [List.getD_cons_succ]
        exact ih jj (by simpa using hj)
    · rw [if_neg h]
      simp only [List.getD_cons_zero]
      cases j with
      | zero => simp
      | succ jj =>
        have hall : ∀ y ∈ rest, ¬ y < x := by
          intro y hy hc
          exact h (List.any_eq_true.mpr ⟨y, hy, by simpa using hc⟩)
        have hjj : jj < rest.length := by simpa using hj
        have hmem : rest.getD jj 0 ∈ rest := by
          rw [← get_eq_getD_nat rest jj hjj]
          exact List.get_mem rest jj hjj
        have := hall _ hmem
        simp only [List.getD_cons_succ]
        omega

/-- Every index before the first-minimum index holds a strictly larger
value: the code's comparator is strict, so ties keep the earlier worker. -/
theorem minIdx_first : ∀ (l : List Nat) (j : Nat), j < minIdx l →
    l.getD (minIdx l) 0 < l.getD j 0 := by
  intro l
  induction l with
  | nil => intro j hj; rw [minIdx] at hj; cases hj
  | cons x rest ih =>
    intro j hj
    rw [minIdx] at hj ⊢
    by_cases h : rest.any (fun y => y < x)
    · rw [if_pos h] at hj ⊢
      cases j with
      | zero =>
        simp only [List.getD_cons_succ, List.getD_cons_zero]
        obtain ⟨y, hy, hlt⟩ := List.any_eq_true.mp h
        have hlt' : y < x := by simpa using hlt
        obtain ⟨⟨jy, hjy⟩, hget⟩ := List.mem_iff_get.mp hy
        have h2 : rest.getD jy 0 = y := by rw [← hget, get_eq_getD_nat]
        calc rest.getD (minIdx rest) 0 ≤ rest.getD jy 0 := minIdx_le rest jy hjy
          _ = y := h2
          _ < x := hlt'
      | succ jj =>
        simp only [List.getD_cons_succ]
        exact ih jj (by omega)
    · rw [if_neg h] at hj
      cases hj

/-- Worker sizes seen through the mapped length list. -/
theorem getD_map_length (pool : ThreadPool) : ∀ i, i < pool.length →
    (pool.map List.length).getD i 0 = (pool.getD i []).length := by
  induction pool with
  | nil => intro i hi; cases hi
  | cons w ps ih =>
    intro i hi
    cases i with
    | zero => rfl
    | succ j =>
      simp only [List.map_cons, List.getD_cons_succ]
      exact ih j (by simpa using hi)

/-- The chosen worker index is inside the pool. -/
theorem minIdx_pool_lt (pool : ThreadPool) (hp : pool ≠ []) :
    minIdx (pool.map List.length) < pool.length := by
  have hne : pool.map List.length ≠ [] := by
    simpa using hp
  have := minIdx_lt_length (pool.map List.length) hne
  simpa using this

/-- The chosen worker's pending count is minimal over the pool. -/
theorem minIdx_pool_min (pool : ThreadPool) (hp : pool ≠ []) :
    ∀ j, j < pool.length →
      (pool.getD (minIdx (pool.map List.length)) []).length ≤
        (pool.getD j []).length := by
  intro j hj
  have hk := minIdx_pool_lt pool hp
  have := minIdx_le (pool.map List.length) j (by simpa using hj)
  rwa [getD_map_length pool _ hk, getD_map_length pool j hj] at this

/-- C5: ThreadPool::enqueue hands the new Call entry to the worker whose
pending count is minimal over the whole pool, breaking ties in favour of
the first such worker in pool order, and appends it there. -/
theorem enqueue_targets_first_minimum (pool : ThreadPool) (c : Str) (hp : pool ≠ []) :
    minIdx (pool.map List.length) < pool.length ∧
    (∀ j, j < pool.length →
      (pool.getD (minIdx (pool.map List.length)) []).length ≤ (pool.getD j []).length) ∧
    (∀ j, j < minIdx (pool.map List.length) →
      (pool.getD (minIdx (pool.map List.length)) []).length < (pool.getD j []).length) ∧
    poolEnqueue pool c =
      pool.set (minIdx (pool.map List.length))
        (pool.getD (minIdx (pool.map List.length)) [] ++ [c]) := by
  have hk : minIdx (pool.map List.length) < pool.length := minIdx_pool_lt pool hp
  refine ⟨hk, minIdx_pool_min pool hp, ?_, rfl⟩
  intro j hj
  have hjlt : j < pool.length := Nat.lt_trans hj hk
  have := minIdx_first (pool.map List.length) j hj
  rwa [getD_map_length pool _ hk, getD_map_length pool j hjlt] at this

/-- Witness for enqueue_targets_first_minimum on the pool
[[Call a(], [], []], whose first minimum is worker 1. -/
theorem enqueue_targets_first_minimum_wit :
    minIdx (([[['C', 'a', 'l', 'l', ' ', 'a', '(']], [], []] : ThreadPool).map List.length) <
      ([[['C', 'a', 'l', 'l', ' ', 'a', '(']], [], []] : ThreadPool).length ∧
    (([[['C', 'a', 'l', 'l', ' ', 'a', '(']], [], []] : ThreadPool).getD
        (minIdx (([[['C', 'a', 'l', 'l', ' ', 'a', '(']], [], []] : ThreadPool).map
          List.length)) []).length ≤
      (([[['C', 'a', 'l', 'l', ' ', 'a', '(']], [], []] : ThreadPool).getD 0 []).length :=
  ⟨(enqueue_targets_first_minimum [[['C', 'a', 'l', 'l', ' ', 'a', '(']], [], []] []
      (by decide)).1,
    (enqueue_targets_first_minimum [[['C', 'a', 'l', 'l', ' ', 'a', '(']], [], []] []
      (by decide)).2.1 0 (by decide)⟩

/-- getD at the written index of a set pool. -/
theorem getD_set_self (pool : ThreadPool) :
    ∀ (k : Nat) (w : List Str), k < pool.length → (pool.set k w).getD k [] = w := by
  induction pool with
  | nil => intro k w hk; cases hk
  | cons a ps ih =>
    intro k w hk
    cases k with
    | zero => rfl
    | succ j =>
      simp only [List.set_cons_succ, List.getD_cons_succ]
      exact ih j w (by simpa using hk)

/-- getD away from the written index of a set pool. -/
theorem getD_set_ne (pool : ThreadPool) :
    ∀ (k i : Nat) (w : List Str), i ≠ k → (pool.set k w).getD i [] = pool.getD i [] := by
  induction pool with
  | nil => intro k i w _; rfl
  | cons a ps ih =>
    intro k i w hik
    cases k with
    | zero =>
      cases i with
      | zero => exact absurd rfl hik
      | succ jj => rfl
    | succ j =>
      cases i with
      | zero => rfl
      | succ jj =>
        simp only [List.set_cons_succ, List.getD_cons_succ]
        exact ih j jj w (fun hc => hik (by rw [hc]))

/-- C6 counterexample: starting from two empty workers, six enqueues
balance the pool 3/3, three Ret broadcasts drain only worker 0, and the
next enqueue then yields pending counts [1, 3]: worker 1 exceeds the
minimum count by 2, although no scan ran during any enqueue decision. -/
theorem enqueue_balance_violation :
    (let final :=
      poolEnqueue
        (poolProcess ['R', 'e', 't', ' ', 'f']
          (poolProcess ['R', 'e', 't', ' ', 'c']
            (poolProcess ['R', 'e', 't', ' ', 'a']
              (poolEnqueue
                (poolEnqueue
                  (poolEnqueue
                    (poolEnqueue
                      (poolEnqueue
                        (poolEnqueue ([[], []] : ThreadPool)
                          ['C', 'a', 'l', 'l', ' ', 'a', '('])
                        ['C', 'a', 'l', 'l', ' ', 'b', '('])
                      ['C', 'a', 'l', 'l', ' ', 'c', '('])
                    ['C', 'a', 'l', 'l', ' ', 'd', '('])
                  ['C', 'a', 'l', 'l', ' ', 'f', '('])
                ['C', 'a', 'l', 'l', ' ', 'g', '(']))))
        ['C', 'a', 'l', 'l', ' ', 'h', '(']
    final.map List.length = [1, 3] ∧
      ¬ (∀ i, i < final.length →
        (final.getD i []).length ≤ (final.getD 0 []).length + 1)) := by
  decide

/-- C6 amended: the greedy bound is an invariant of the enqueue operation
taken alone: whenever no worker's pending count exceeds any other's by
more than 1, the same holds after one more enqueue.  Ret scans between
enqueues can break the precondition, and with it the bound. -/
theorem enqueue_preserves_balance (pool : ThreadPool) (c : Str) (hp : pool ≠ [])
    (hbal : ∀ i, i < pool.length → ∀ j, j < pool.length →
      (pool.getD i []).length ≤ (pool.getD j []).length + 1) :
    ∀ i, i < (poolEnqueue pool c).length → ∀ j, j < (poolEnqueue pool c).length →
      ((poolEnqueue pool c).getD i []).length ≤
        ((poolEnqueue pool c).getD j []).length + 1 := by
  have hk : minIdx (pool.map List.length) < pool.length := minIdx_pool_lt pool hp
  have hmin := minIdx_pool_min pool hp
  intro i hi j hj
  rw [poolEnqueue] at hi hj ⊢
  simp only [List.length_set] at hi hj
  by_cases hik : i = minIdx (pool.map List.length)
  · rw [hik, getD_set_self pool _ _ hk]
    by_cases hjk : j = minIdx (pool.map List.length)
    · rw [hjk, getD_set_self pool _ _ hk]
      simp
    · rw [getD_set_ne pool _ _ _ hjk]
      have := hmin j hj
      simp only [List.length_append, List.length_cons, List.length_nil]
      omega
  · rw [getD_set_ne pool _ _ _ hik]
    by_cases hjk : j = minIdx (pool.map List.length)
    · subst hjk
      rw [getD_set_self pool _ _ hk]
      have := hbal i hi _ hk
      simp only [List.length_append, List.length_cons, List.length_nil]
      omega
    · rw [getD_set_ne pool _ _ _ hjk]
      exact hbal i hi j hj

/-- Witness for enqueue_preserves_balance on the balanced pool
[[Call a(], []] receiving "Call b(". -/
theorem enqueue_preserves_balance_wit :
    ((poolEnqueue [[['C', 'a', 'l', 'l', ' ', 'a', '(']], []]
        ['C', 'a', 'l', 'l', ' ', 'b', '(']).getD 1 []).length ≤
      ((poolEnqueue [[['C', 'a', 'l', 'l', ' ', 'a', '(']], []]
        ['C', 'a', 'l', 'l', ' ', 'b', '(']).getD 0 []).length + 1 :=
  enqueue_preserves_balance [[['C', 'a', 'l', 'l', ' ', 'a', '(']], []]
    ['C', 'a', 'l', 'l', ' ', 'b', '('] (by decide) (by decide) 1 (by decide) 0 (by decide)

/-- C7: the driver classifies each line by substring containment, testing
"Call" before "Ret", so the three outcomes are mutually exclusive; a line
in neither class is appended to the passthrough output unchanged, with
the pool and the match accounting untouched. -/
theorem driver_classification (s : DriverState) (line : Str) :
    (classify line = LineClass.call ↔ containsStr line callTok) ∧
    (classify line = LineClass.ret ↔
      (¬ containsStr line callTok ∧ containsStr line retTok)) ∧
    (classify line = LineClass.other ↔
      (¬ containsStr line callTok ∧ ¬ containsStr line retTok)) ∧
    stepLine s line =
      (if containsStr line callTok then { s with pool := poolEnqueue s.pool line }
       else if containsStr line retTok then
         { s with
           pool := poolProcess line s.pool
           matched := s.matched ++ poolRemoved line s.pool }
       else { s with passed := s.passed ++ [line] }) := by
  have hc : (strFind? line callTok).isSome = true ↔ containsStr line callTok :=
    strFind?_isSome_iff line callTok
  have hr : (strFind? line retTok).isSome = true ↔ containsStr line retTok :=
    strFind?_isSome_iff line retTok
  by_cases h1 : containsStr line callTok
  · have hcl : classify line = LineClass.call := by
      rw [classify, if_pos (hc.mpr h1)]
    refine ⟨by simp [hcl, h1], by simp [hcl, h1], by simp [hcl, h1], ?_⟩
    rw [stepLine, hcl, if_pos h1]
  · have hncb : ¬ ((strFind? line callTok).isSome = true) :=
      fun hb => h1 (hc.mp hb)
    by_cases h2 : containsStr line retTok
    · have hcl : classify line = LineClass.ret := by
        rw [classify, if_neg hncb, if_pos (hr.mpr h2)]
      refine ⟨by simp [hcl, h1], by simp [hcl, h1, h2], by simp [hcl, h2], ?_⟩
      rw [stepLine, hcl, if_neg h1, if_pos h2]
    · have hnrb : ¬ ((strFind? line retTok).isSome = true) :=
        fun hb => h2 (hr.mp hb)
      have hcl : classify line = LineClass.other := by
        rw [classify, if_neg hncb, if_neg hnrb]
      refine ⟨by simp [hcl, h1], by simp [hcl, h2], by simp [hcl, h1, h2], ?_⟩
      rw [stepLine, hcl, if_neg h1, if_neg h2]

/-- C8: the pool holds N worker threads with N computed from the unsigned
hardware_concurrency value hc as hc - 1 in wraparound (mod 2^32)
arithmetic, then forced to at least 1 by the guard; in particular N is
never below 1, N = hc - 1 for every ordinary hc ≥ 2, N = 1 when hc = 1,
and the wraparound sends hc = 0 to 2^32 - 1. -/
theorem pool_worker_count (hc : Nat) (h : hc < 2 ^ 32) :
    1 ≤ numThreads hc ∧
    (initPool hc).length = numThreads hc ∧
    (2 ≤ hc → numThreads hc = hc - 1) ∧
    (hc = 1 → numThreads hc = 1) ∧
    (hc = 0 → numThreads hc = 2 ^ 32 - 1) := by
  refine ⟨?_, by simp [initPool], ?_, ?_, ?_⟩
  · simp only [numThreads]
    split
    · omega
    · omega
  · intro h2
    simp only [numThreads]
    have he : (hc + (2 ^ 32 - 1)) % 2 ^ 32 = hc - 1 := by omega
    rw [he]
    have hne : ¬ (hc - 1 = 0) := by omega
    simp [hne]
  · intro h1
    subst h1
    simp only [numThreads]
    have he : (1 + (2 ^ 32 - 1)) % 2 ^ 32 = 0 := by omega
    rw [he]
    simp
  · intro h0
    subst h0
    simp only [numThreads]
    have he : (0 + (2 ^ 32 - 1)) % 2 ^ 32 = 2 ^ 32 - 1 := by omega
    rw [he]
    have hne : ¬ (2 ^ 32 - 1 = 0) := by omega
    simp [hne]

/-- Witness for pool_worker_count at hc = 0: the wraparound yields
2^32 - 1 workers, which is at least 1. -/
theorem pool_worker_count_wit :
    1 ≤ numThreads 0 ∧ numThreads 0 = 2 ^ 32 - 1 :=
  ⟨(pool_worker_count 0 (by decide)).1,
    (pool_worker_count 0 (by decide)).2.2.2.2 rfl⟩

/-- One scan pass only repartitions a worker's entries: the pending list
before equals removed-plus-remaining up to permutation. -/
theorem threadRunOnce_perm (work : Str) :
    ∀ l : List Str,
      List.Perm l (threadRemovedBy work l ++ threadRunOnce work l) := by
  intro l
  induction l with
  | nil => exact List.Perm.refl []
  | cons a rest ih =>
    rw [threadRunOnce, threadRemovedBy]
    by_cases h : parserAccepts a work
    · simp only [h, if_true]
      exact List.Perm.refl _
    · simp only [h, if_false, Bool.false_eq_true]
      exact (ih.cons a).trans List.perm_middle.symm

/-- Four-block shuffle used to lift the per-worker repartition to pools. -/
theorem perm_append_swap_middle (A B C D : List Str) :
    List.Perm ((A ++ B) ++ (C ++ D)) ((A ++ C) ++ (B ++ D)) := by
  have hin : List.Perm (B ++ (C ++ D)) (C ++ (B ++ D)) := by
    have h1 : List.Perm ((B ++ C) ++ D) ((C ++ B) ++ D) :=
      List.perm_append_comm.append_right D
    simpa [List.append_assoc] using h1
  have h2 : List.Perm (A ++ (B ++ (C ++ D))) (A ++ (C ++ (B ++ D))) :=
    List.Perm.append_left A hin
  simpa [List.append_assoc] using h2

/-- A Ret broadcast only repartitions the pool's entries between the
removed ones and the ones still pending. -/
theorem poolProcess_perm (work : Str) :
    ∀ pool : ThreadPool,
      List.Perm pool.flatten
        (poolRemoved work pool ++ (poolProcess work pool).flatten) := by
  intro pool
  induction pool with
  | nil => exact List.Perm.refl []
  | cons w ps ih =>
    have hw := threadRunOnce_perm work w
    have hstep : List.Perm (w ++ ps.flatten)
        ((threadRemovedBy work w ++ threadRunOnce work w) ++
          (poolRemoved work ps ++ (poolProcess work ps).flatten)) := hw.append ih
    have hsw := perm_append_swap_middle (threadRemovedBy work w)
      (threadRunOnce work w) (poolRemoved work ps) ((poolProcess work ps).flatten)
    have hall := hstep.trans hsw
    simpa [poolRemoved, poolProcess, List.append_assoc] using hall

/-- Writing worker k's list extended by one entry moves that entry to the
end of the pool's flattened contents, up to permutation. -/
theorem flatten_set_append_perm :
    ∀ (pool : ThreadPool) (k : Nat), k < pool.length → ∀ c : Str,
      List.Perm ((pool.set k (pool.getD k [] ++ [c])).flatten)
        (pool.flatten ++ [c]) := by
  intro pool
  induction pool with
  | nil => intro k hk; cases hk
  | cons w ps ih =>
    intro k hk c
    cases k with
    | zero =>
      simp only [List.getD_cons_zero, List.set_cons_zero, List.flatten_cons]
      have h2 : List.Perm (w ++ ([c] ++ ps.flatten)) (w ++ (ps.flatten ++ [c])) :=
        List.Perm.append_left w List.perm_append_comm
      simpa [List.append_assoc] using h2
    | succ j =>
      simp only [List.getD_cons_succ, List.set_cons_succ, List.flatten_cons]
      have hj : j < ps.length := by simpa using hk
      have h2 : List.Perm (w ++ (ps.set j (ps.getD j [] ++ [c])).flatten)
          (w ++ (ps.flatten ++ [c])) := List.Perm.append_left w (ih j hj c)
      simpa [List.append_assoc] using h2

/-- ThreadPool::enqueue adds exactly the new entry to the pool's contents. -/
theorem poolEnqueue_flatten_perm (pool : ThreadPool) (c : Str) (hp : pool ≠ []) :
    List.Perm ((poolEnqueue pool c).flatten) (pool.flatten ++ [c]) := by
  have hk : minIdx (pool.map List.length) < pool.length := minIdx_pool_lt pool hp
  exact flatten_set_append_perm pool _ hk c

/-- Erasing a worker holding nothing leaves the pool's contents intact. -/
theorem flatten_eraseIdx_of_getD_nil :
    ∀ (pool : ThreadPool) (i : Nat), pool.getD i [] = [] →
      (pool.eraseIdx i).flatten = pool.flatten := by
  intro pool
  induction pool with
  | nil => intro i _; rfl
  | cons w ps ih =>
    intro i h
    cases i with
    | zero =>
      simp only [List.getD_cons_zero] at h
      subst h
      simp [List.eraseIdx]
    | succ j =>
      simp only [List.getD_cons_succ] at h
      simp only [List.eraseIdx_cons_succ, List.flatten_cons]
      rw [ih j h]

/-- Taking the front entry of worker i out of the pool. -/
theorem flatten_set_tail_perm :
    ∀ (pool : ThreadPool) (i : Nat) (e : Str) (rest : List Str),
      pool.getD i [] = e :: rest →
      List.Perm pool.flatten (e :: (pool.set i rest).flatten) := by
  intro pool
  induction pool with
  | nil => intro i e rest h; simp [List.getD] at h
  | cons w ps ih =>
    intro i e rest h
    cases i with
    | zero =>
      simp only [List.getD_cons_zero] at h
      subst h
      simp only [List.set_cons_zero, List.flatten_cons, List.cons_append]
      exact List.Perm.refl _
    | succ j =>
      simp only [List.getD_cons_succ] at h
      simp only [List.set_cons_succ, List.flatten_cons]
      have h1 : List.Perm (w ++ ps.flatten)
          (w ++ (e :: (ps.set j rest).flatten)) :=
        List.Perm.append_left w (ih j e rest h)
      exact h1.trans List.perm_middle

/-- One driver step conserves entries: ghost-matched plus pending after
the step equals the same before the step, plus the entry if the line was
a Call. -/
theorem stepLine_conservation (s : DriverState) (line : Str) (hp : s.pool ≠ []) :
    List.Perm ((stepLine s line).matched ++ (stepLine s line).pool.flatten)
      ((s.matched ++ s.pool.flatten) ++
        (if classify line = LineClass.call then [line] else [])) := by
  cases hcl : classify line with
  | call =>
    simp only [stepLine, hcl, if_true]
    have h := poolEnqueue_flatten_perm s.pool line hp
    have h2 : List.Perm (s.matched ++ (poolEnqueue s.pool line).flatten)
        (s.matched ++ (s.pool.flatten ++ [line])) := List.Perm.append_left _ h
    simpa [List.append_assoc] using h2
  | ret =>
    simp only [stepLine, hcl]
    have h := (poolProcess_perm line s.pool).symm
    have h2 : List.Perm
        (s.matched ++ (poolRemoved line s.pool ++ (poolProcess line s.pool).flatten))
        (s.matched ++ s.pool.flatten) := List.Perm.append_left _ h
    simpa [List.append_assoc] using h2
  | other =>
    simp only [stepLine, hcl]
    simp

/-- A driver step never changes the number of workers. -/
theorem stepLine_pool_length (s : DriverState) (line : Str) :
    (stepLine s line).pool.length = s.pool.length := by
  cases hcl : classify line with
  | call => simp [stepLine, hcl, poolEnqueue]
  | ret => simp [stepLine, hcl, poolProcess]
  | other => simp [stepLine, hcl]

/-- Running the driver over any suffix of input conserves entries: what
has been ghost-matched plus what is pending equals the initial content
plus every Call-classified line consumed. -/
theorem runLines_conservation :
    ∀ (lines : List Str) (s : DriverState), s.pool ≠ [] →
      List.Perm ((runLines s lines).matched ++ (runLines s lines).pool.flatten)
        ((s.matched ++ s.pool.flatten) ++
          lines.filter (fun l => decide (classify l = LineClass.call))) := by
  intro lines
  induction lines with
  | nil =>
    intro s _
    simp [runLines]
  | cons l ls ih =>
    intro s hp
    rw [runLines]
    have hp' : (stepLine s l).pool ≠ [] := by
      have hlen := stepLine_pool_length s l
      have hpos : 0 < s.pool.length := List.length_pos.mpr hp
      apply List.length_pos.mp
      omega
    have hih := ih (stepLine s l) hp'
    have hstep := stepLine_conservation s l hp
    by_cases hcl : classify l = LineClass.call
    · have hfil : (l :: ls).filter (fun x => decide (classify x = LineClass.call)) =
          l :: ls.filter (fun x => decide (classify x = LineClass.call)) := by
        simp [List.filter_cons, hcl]
      rw [hfil]
      have hstep' : List.Perm
          ((stepLine s l).matched ++ (stepLine s l).pool.flatten)
          ((s.matched ++ s.pool.flatten) ++ [l]) := by
        simpa [hcl] using hstep
      have happ := hstep'.append_right
        (ls.filter (fun x => decide (classify x = LineClass.call)))
      have hfin := hih.trans happ
      simpa [List.append_assoc] using hfin
    · have hfil : (l :: ls).filter (fun x => decide (classify x = LineClass.call)) =
          ls.filter (fun x => decide (classify x = LineClass.call)) := by
        simp [List.filter_cons, hcl]
      rw [hfil]
      have hstep' : List.Perm
          ((stepLine s l).matched ++ (stepLine s l).pool.flatten)
          (s.matched ++ s.pool.flatten) := by
        simpa [hcl] using hstep
      have happ := hstep'.append_right
        (ls.filter (fun x => decide (classify x = LineClass.call)))
      exact hih.trans happ

/-- The output drain loop emits exactly the pool's remaining entries,
one line each, up to permutation (round-robin order aside). -/
theorem drainPool_perm_aux :
    ∀ (n : Nat) (pool : ThreadPool) (i : Nat),
      (pool.map List.length).sum + pool.length ≤ n →
      (pool = [] ∨ i < pool.length) →
      List.Perm (drainPool pool i) pool.flatten := by
  intro n
  induction n with
  | zero =>
    intro pool i hle _
    have hnil : pool = [] := by
      cases pool with
      | nil => rfl
      | cons w ps => simp at hle
    subst hnil
    simp [drainPool]
  | succ m ih =>
    intro pool i hle hcond
    rcases hcond with rfl | hi
    · simp [drainPool]
    · have hne : pool ≠ [] := by
        intro hc
        rw [hc] at hi
        cases hi
      have hlenpos : 0 < pool.length := List.length_pos.mpr hne
      rw [drainPool]
      rw [dif_neg hne, dif_pos hi]
      split
      · rename_i heq
        have hsum : ((pool.eraseIdx i).map List.length).sum ≤
            (pool.map List.length).sum := sum_map_length_eraseIdx_le pool i
        have hlen : (pool.eraseIdx i).length = pool.length - 1 := by
          rw [List.length_eraseIdx]
          simp [hi]
        have hcond' : pool.eraseIdx i = [] ∨
            (if i < pool.length - 1 then i else 0) < (pool.eraseIdx i).length := by
          by_cases hz : pool.length - 1 = 0
          · left
            cases hpe : pool.eraseIdx i with
            | nil => rfl
            | cons a b =>
              have := congrArg List.length hpe
              rw [hlen] at this
              simp [hz] at this
          · right
            rw [hlen]
            by_cases hil : i < pool.length - 1
            · simp [hil]
            · simp [hil]
              omega
        have hperm := ih (pool.eraseIdx i) (if i < pool.length - 1 then i else 0)
          (by omega) hcond'
        rw [flatten_eraseIdx_of_getD_nil pool i heq] at hperm
        exact hperm
      · rename_i e rest heq
        have hsum : ((pool.set i rest).map List.length).sum <
            (pool.map List.length).sum := sum_map_length_set_tail_lt pool i e rest heq
        have hlen : (pool.set i rest).length = pool.length := List.length_set pool i rest
        have hcond' : pool.set i rest = [] ∨
            (i + 1) % pool.length < (pool.set i rest).length := by
          right
          rw [hlen]
          exact Nat.mod_lt _ hlenpos
        have hperm := ih (pool.set i rest) ((i + 1) % pool.length) (by omega) hcond'
        exact (hperm.cons e).trans (flatten_set_tail_perm pool i e rest heq).symm

/-- drainPool starting at worker 0 drains the whole pool. -/
theorem drainPool_zero_perm (pool : ThreadPool) :
    List.Perm (drainPool pool 0) pool.flatten := by
  apply drainPool_perm_aux ((pool.map List.length).sum + pool.length) pool 0
    (Nat.le_refl _)
  cases pool with
  | nil => exact Or.inl rfl
  | cons w ps => exact Or.inr (by simp)

/-- An all-empty pool holds no entries. -/
theorem flatten_replicate_nil :
    ∀ m : Nat, (List.replicate m ([] : List Str)).flatten = [] := by
  intro m
  induction m with
  | zero => rfl
  | succ k ihk => simp [List.replicate_succ, ihk]

/-- C2: over any input stream run on a pool of n ≥ 1 workers, the multiset
of Call-classified lines equals the Ret-matched entries plus the entries
the end-of-stream drain emits: every enqueued Call entry is either matched
exactly once or emitted exactly once as unresolved, never both, never
neither. -/
theorem call_entries_partition (n : Nat) (hn : 0 < n) (lines : List Str) :
    List.Perm (lines.filter (fun l => decide (classify l = LineClass.call)))
      ((runLines (initState n) lines).matched ++
        drainPool (runLines (initState n) lines).pool 0) := by
  have hp0 : (initState n).pool ≠ [] := by
    simp only [initState]
    intro hc
    have hlen := congrArg List.length hc
    simp at hlen
    omega
  have hcons := runLines_conservation lines (initState n) hp0
  have hinit : (initState n).matched ++ (initState n).pool.flatten = [] := by
    simp [initState, flatten_replicate_nil n]
  rw [hinit] at hcons
  simp only [List.nil_append] at hcons
  have hdrain := drainPool_zero_perm (runLines (initState n) lines).pool
  have hright : List.Perm
      ((runLines (initState n) lines).matched ++
        (runLines (initState n) lines).pool.flatten)
      ((runLines (initState n) lines).matched ++
        drainPool (runLines (initState n) lines).pool 0) :=
    List.Perm.append_left _ hdrain.symm
  exact (hcons.symm).trans hright

/-- Witness for call_entries_partition: one worker fed a Call line and
the Ret line resolving it. -/
theorem call_entries_partition_wit :
    List.Perm
      ([['C', 'a', 'l', 'l', ' ', 'a', '('], ['R', 'e', 't', ' ', 'a']].filter
        (fun l => decide (classify l = LineClass.call)))
      ((runLines (initState 1)
          [['C', 'a', 'l', 'l', ' ', 'a', '('], ['R', 'e', 't', ' ', 'a']]).matched ++
        drainPool (runLines (initState 1)
          [['C', 'a', 'l', 'l', ' ', 'a', '('], ['R', 'e', 't', ' ', 'a']]).pool 0) :=
  call_entries_partition 1 (by decide)
    [['C', 'a', 'l', 'l', ' ', 'a', '('], ['R', 'e', 't', ' ', 'a']]
